import Mathlib

/-!
Verification development for the credit-scoring notebook
`notebooks/04-random-forests.ipynb`.

The notebook is orchestration code over an external distributed ML library
(CSV loading, vector assembly, random splitting, random-forest training,
evaluation).  Definitions below are of two kinds:

* direct shallow embeddings of the notebook's own Python code
  (the `balance` display lookup, `feature_column_names`, the tree-dump
  string substitution, the hyperparameters passed to the trainer);
* models of the delegated library operations, each marked
  `Modelled from the spec:` in its doc comment, faithful to the contract
  the specification states for that operation, since the library source is
  not part of this repository.
-/

namespace CreditNotebook

/-! ## Data model

A record of the CSV is modelled as a total assignment of integer values to
column names (the CSV columns are integer-typed: category codes, amounts,
the 0/1 label `creditability`). -/

/-- A row of the loaded dataset: a value for every column name. -/
def Record : Type := String → Int

/-- The binary label of a record: value of the `creditability` column
(0 = high risk, 1 = low risk), from the notebook's `labelCol="creditability"`. -/
def creditLabel (r : Record) : Int := r "creditability"

/-! ## The `balance` display mapping (notebook cell 17)

```python
CHECKING_ACCOUNT_STATUS = {
    1: '< 0 DM',
    2: '0 <= ... < 200 DM',
    3: '... >= 200 DM',
    4: 'no checking account'
}
checking_account_status = F.udf(lambda index: CHECKING_ACCOUNT_STATUS[index], StringType())
```

A Python dict lookup `d[index]` raises `KeyError` for a missing key; the
embedding returns `none` in that case (`some` = successful lookup, `none` =
fatal lookup error).  There is no default branch. -/

/-- The four-entry lookup table `CHECKING_ACCOUNT_STATUS`; `none` models the
`KeyError` a Python dict raises on any other key. -/
def CHECKING_ACCOUNT_STATUS (index : Int) : Option String :=
  if index = 1 then some "< 0 DM"
  else if index = 2 then some "0 <= ... < 200 DM"
  else if index = 3 then some "... >= 200 DM"
  else if index = 4 then some "no checking account"
  else none

/-- The UDF `checking_account_status`: applies the dict lookup to one value. -/
def checking_account_status (index : Int) : Option String :=
  CHECKING_ACCOUNT_STATUS index

/-- The display-mapping step of the pivot cell: the UDF is applied to the
`balance` value of every row of the grouped table; any failing lookup
aborts the whole step (Python exception semantics). -/
def displayMappingStep : List Int → Option (List String)
  | [] => some []
  | b :: bs =>
    match checking_account_status b, displayMappingStep bs with
    | some s, some rest => some (s :: rest)
    | _, _ => none

/-! ## Feature columns (notebook cell 20) -/

/-- The fixed ordered list of the 20 feature column names, exactly as in the
notebook. -/
def feature_column_names : List String :=
  ["balance", "duration", "history", "purpose", "amount",
   "savings", "employment", "instPercent", "sexMarried",
   "guarantors", "residenceDuration", "assets", "age",
   "concCredit", "apartment", "credits", "occupation",
   "dependents", "hasPhone", "foreign"]

/-! ## Feature assembly (notebook cell 22)

`VectorAssembler(inputCols=feature_column_names, outputCol="features")`.

Modelled from the spec: the assembler is library code absent from this
repository; per the spec it "concatenates a fixed list of numeric columns
into one vector-valued column per row", deterministically and in the order
of the given column list. -/

/-- Modelled from the spec: `VectorAssembler.transform` on one row —
the feature vector is the row's values at the listed columns, in list
order. -/
def assemble (cols : List String) (r : Record) : List Int :=
  cols.map r

/-- The `features` column the notebook adds: assembly over
`feature_column_names`. -/
def features (r : Record) : List Int :=
  assemble feature_column_names r

/-! ## Random split (notebook cell 25)

```python
train_data, test_data = features_df.randomSplit([0.8, 0.2], 12345)
```

Modelled from the spec: `randomSplit` is library code absent from this
repository.  Per the spec it "partitions rows pseudo-randomly into training
(80%) and test (20%) subsets given a fixed seed", every row going to exactly
one side, deterministically in (seed, input).  The model draws one value of
a deterministic pseudo-random stream per row and assigns the row to the
training side when the draw falls in the 80% region.  Rows are identified
positionally (as index-row pairs), since a dataset may contain duplicate
row values. -/

/-- Modelled from the spec: one step of the deterministic pseudo-random
stream (a linear congruential generator, modulus 2^31). -/
def lcg (s : Nat) : Nat := (s * 1103515245 + 12345) % 2147483648

/-- The pseudo-random stream: `iterLcg seed n` is the generator iterated
`n` times from the seed. -/
def iterLcg (seed : Nat) : Nat → Nat
  | 0 => seed
  | n + 1 => lcg (iterLcg seed n)

/-- Row `i`'s assignment: `true` = training side (the 80% region of the
`i`-th draw of the stream), `false` = test side. -/
def splitAssign (seed i : Nat) : Bool := iterLcg seed (i + 1) % 10 < 8

/-- Modelled from the spec: `randomSplit` as a pure function of seed and
input — each enumerated row goes to the side its own draw selects. -/
def randomSplit {α : Type} (seed : Nat) (ds : List α) :
    List (Nat × α) × List (Nat × α) :=
  (ds.enum.filter fun p => splitAssign seed p.1,
   ds.enum.filter fun p => !splitAssign seed p.1)

/-- A second, independently written implementation of the same split: a
single pass that threads the generator state through the rows, consuming
one draw per row, as a separate run of the operation would. -/
def splitRun {α : Type} (s : Nat) : List (Nat × α) → List (Nat × α) × List (Nat × α)
  | [] => ([], [])
  | p :: ps =>
    let s2 := lcg s
    let (tr, te) := splitRun s2 ps
    if s2 % 10 < 8 then (p :: tr, te) else (tr, p :: te)

/-- The second split operation, run on the same enumerated input. -/
def randomSplitRun {α : Type} (seed : Nat) (ds : List α) :
    List (Nat × α) × List (Nat × α) :=
  splitRun seed ds.enum

/-! ## Random-forest training (notebook cell 27)

```python
rf = RandomForestClassifier(numTrees=20, maxDepth=5, labelCol="creditability", seed=42)
model = rf.fit(train_data)
```

The hyperparameters are the notebook's own values; the training algorithm is
library code absent from this repository and is modelled from the spec's
contract for the Trainer: "build `tree count` decision trees, each on an
independently resampled subset of rows (bagging) and a random subset of
features per node-split decision [5 of 20 per split]; each tree recursively
partitions rows by single-feature thresholds, continuous features
discretized into ≤150 candidate thresholds; stop at `max depth` or when a
node is pure/too small". -/

/-- The trainer hyperparameters: tree count, maximum depth, label column,
seed, maximum number of discretization bins, and per-split feature-subset
size. -/
structure RFParams where
  numTrees : Nat
  maxDepth : Nat
  labelCol : String
  seed : Nat
  maxBins : Nat
  featureSubsetSize : Nat

/-- The notebook's trainer configuration: `numTrees=20, maxDepth=5,
labelCol="creditability", seed=42`; the bin bound (150) and the per-split
feature-subset size (5 of the 20 features) are modelled from the spec,
which fixes them for this workflow. -/
def rfNotebook : RFParams := ⟨20, 5, "creditability", 42, 150, 5⟩

/-- Number of features, from `feature_column_names`. -/
def numFeatures : Nat := feature_column_names.length

/-- A decision tree: leaves carry class-probability pairs, interior nodes
split one feature at an integer threshold. -/
inductive DTree where
  | leaf (probs : ℚ × ℚ)
  | node (feat : Nat) (thr : Int) (left : DTree) (right : DTree)

/-- Depth of a tree (a lone leaf has depth 0). -/
def DTree.depth : DTree → Nat
  | .leaf _ => 0
  | .node _ _ l r => 1 + max l.depth r.depth

/-- Bool check that every interior node of a tree splits a feature index
below `nf` at a threshold that is one of the bins `0 .. bins-1`. -/
def DTree.okNodes (nf bins : Nat) : DTree → Bool
  | .leaf _ => true
  | .node f t l r =>
    decide (f < nf) && decide (0 ≤ t) && decide (t < (bins : Int)) &&
      l.okNodes nf bins && r.okNodes nf bins

/-- Modelled from the spec: empirical class probabilities of a set of rows
(the leaf statistic); an empty node falls back to the uninformative pair. -/
def classProbs {α : Type} (labelOf : α → Int) (rows : List α) : ℚ × ℚ :=
  if rows.length = 0 then (1/2, 1/2)
  else (((rows.filter fun r => labelOf r == 0).length : ℚ) / rows.length,
        ((rows.filter fun r => labelOf r == 1).length : ℚ) / rows.length)

/-- Modelled from the spec: the random subset of `featureSubsetSize = 5`
feature indices (out of `numFeatures = 20`) considered by one split
decision, drawn from the seeded stream. -/
def featSubset (s : Nat) : List Nat :=
  (List.range rfNotebook.featureSubsetSize).map fun j => iterLcg s (j + 1) % numFeatures

/-- The feature a split decision selects: a member of its considered
subset. -/
def featPick (s : Nat) : Nat :=
  (featSubset s).getD (iterLcg s 6 % rfNotebook.featureSubsetSize) 0

/-- Modelled from the spec: recursive tree construction — stop at depth 0
or when the node is too small, otherwise split the picked feature at a
threshold chosen among the `maxBins` candidate bins and recurse. -/
def buildTree {α : Type} (labelOf : α → Int) (featOf : α → Nat → Int)
    (p : RFParams) : Nat → Nat → List α → DTree
  | 0, _, rows => .leaf (classProbs labelOf rows)
  | d + 1, s, rows =>
    if rows.length ≤ 1 then .leaf (classProbs labelOf rows)
    else
      let f := featPick s
      let t : Int := Int.ofNat (iterLcg s 7 % p.maxBins)
      .node f t
        (buildTree labelOf featOf p d (lcg (2 * s))
          (rows.filter fun r => decide (featOf r f ≤ t)))
        (buildTree labelOf featOf p d (lcg (2 * s + 1))
          (rows.filter fun r => !decide (featOf r f ≤ t)))

/-- Modelled from the spec: bagging — each tree trains on an independently
resampled (with replacement) subset of the training rows. -/
def bootstrap {α : Type} (s : Nat) (rows : List α) : List α :=
  (List.range rows.length).filterMap fun j => rows.get? (iterLcg s (j + 1) % rows.length)

/-- Modelled from the spec: `RandomForestClassifier.fit` — build
`numTrees` trees, each from its own seeded draw and bootstrap sample. -/
def fit {α : Type} (labelOf : α → Int) (featOf : α → Nat → Int)
    (p : RFParams) (rows : List α) : List DTree :=
  (List.range p.numTrees).map fun t =>
    buildTree labelOf featOf p p.maxDepth (iterLcg p.seed (t + 1))
      (bootstrap (iterLcg p.seed (t + 1)) rows)

/-! ## Prediction (notebook cell 29)

`predictions = model.transform(test_data)`.  Modelled from the spec: the
ensemble's class-probability vector (length 2, one entry per class) is the
average of the per-tree predicted class probabilities, and the predicted
label is the argmax of that vector, ties broken toward class 0. -/

/-- Route a row down a tree to its leaf probabilities. -/
def DTree.predictRow {α : Type} (featOf : α → Nat → Int) (x : α) : DTree → ℚ × ℚ
  | .leaf p => p
  | .node f t l r => if featOf x f ≤ t then l.predictRow featOf x else r.predictRow featOf x

/-- Componentwise average of a list of class-probability pairs. -/
def avgProbs (ps : List (ℚ × ℚ)) : ℚ × ℚ :=
  ((ps.map Prod.fst).sum / ps.length, (ps.map Prod.snd).sum / ps.length)

/-- Argmax of a length-2 probability vector; a tie yields class 0. -/
def argmaxLabel (p : ℚ × ℚ) : ℚ := if p.1 < p.2 then 1 else 0

/-- Modelled from the spec: `model.transform` on one test row — the
averaged probability vector together with its argmax label. -/
def transformRow {α : Type} (featOf : α → Nat → Int) (trees : List DTree) (x : α) :
    (ℚ × ℚ) × ℚ :=
  let p := avgProbs (trees.map (DTree.predictRow featOf x))
  (p, argmaxLabel p)

/-! ## Feature importances (notebook cell 35)

`model.featureImportances.toArray()`, paired with `feature_column_names`.
Modelled from the spec: the Feature Importance Table is the per-feature
accumulated impurity reduction of the Model, normalized so the 20
non-negative scores sum to 1. -/

/-- Modelled from the spec: normalization of the raw per-feature impurity
reductions into the importance scores. -/
def normalizeImportances (raw : List ℚ) : List ℚ :=
  raw.map fun x => x / raw.sum

/-! ## Evaluation (notebook cell 32)

`BinaryClassificationEvaluator(labelCol='creditability')` /
`evaluator.evaluate(predictions)`.  Modelled from the spec: the metric is
the area under the ROC curve, "a threshold-independent measure of a binary
classifier's ability to rank positive examples above negative ones" — the
fraction of (positive, negative) row pairs the predicted probability ranks
correctly, ties counted half. -/

/-- Ranking credit of one (positive, negative) pair of scores. -/
def pairScore (sp sn : ℚ) : ℚ :=
  if sn < sp then 1 else if sp = sn then 1/2 else 0

/-- Predicted scores of the rows whose true label is 1. -/
def posScores (rows : List (ℚ × Int)) : List ℚ :=
  (rows.filter fun r => r.2 == 1).map Prod.fst

/-- Predicted scores of the rows whose true label is 0. -/
def negScores (rows : List (ℚ × Int)) : List ℚ :=
  (rows.filter fun r => r.2 == 0).map Prod.fst

/-- Total ranking credit over all (positive, negative) pairs. -/
def aucNum (pos neg : List ℚ) : ℚ :=
  (pos.map fun sp => (neg.map fun sn => pairScore sp sn).sum).sum

/-- Modelled from the spec: the evaluator's output — area under the ROC
curve of the predictions (each row a pair of predicted probability of class
1 and true label). -/
def areaUnderROC (rows : List (ℚ × Int)) : ℚ :=
  aucNum (posScores rows) (negScores rows) /
    (((posScores rows).length : ℚ) * ((negScores rows).length : ℚ))

/-! ## Tree dump substitution (notebook cell 37)

```python
tree_model_string = model.trees[0].toDebugString
for index, column_name in enumerate(feature_column_names):
    tree_model_string = tree_model_string.replace(
        'feature {} '.format(index),
        '{} '.format(column_name)
    )
```

The loop body is Python `str.replace`: replace every (leftmost,
non-overlapping) occurrence of the literal pattern, scanning left to right
and continuing after each replaced segment.  Strings are embedded as
`List Char`. -/

/-- `startsList p s`: the pattern `p` is an initial segment of `s`. -/
def startsList : List Char → List Char → Bool
  | [], _ => true
  | _ :: _, [] => false
  | a :: as, b :: bs => a == b && startsList as bs

/-- `occursIn p s`: the pattern `p` occurs as a contiguous substring of
`s`. -/
def occursIn (p : List Char) : List Char → Bool
  | [] => startsList p []
  | c :: cs => startsList p (c :: cs) || occursIn p cs

/-- Fueled scanner implementing `str.replace`: at each position, either the
pattern matches and is replaced (scanning resumes after the match), or one
character is emitted.  Fuel bounds the number of scan steps; `length s`
steps suffice for a non-empty pattern. -/
def replaceFuel (p r : List Char) : Nat → List Char → List Char
  | 0, s => s
  | _ + 1, [] => []
  | f + 1, c :: cs =>
    if startsList p (c :: cs) then r ++ replaceFuel p r f ((c :: cs).drop p.length)
    else c :: replaceFuel p r f cs

/-- Python `s.replace(p, r)`. -/
def pyReplace (s p r : List Char) : List Char := replaceFuel p r s.length s

/-- Decimal digits of a feature index (two digits at most arise: the
indices are 0..19). -/
def indexChars (i : Nat) : List Char :=
  if i < 10 then [Char.ofNat (48 + i)]
  else [Char.ofNat (48 + i / 10), Char.ofNat (48 + i % 10)]

/-- The literal pattern `'feature {} '.format(index)` — note the trailing
space. -/
def featureTag (i : Nat) : List Char :=
  "feature ".toList ++ indexChars i ++ [' ']

/-- The replacement `'{} '.format(column_name)` for index `i`. -/
def nameTag (i : Nat) : List Char :=
  (feature_column_names.getD i "").toList ++ [' ']

/-- The notebook's substitution loop over the first tree's debug string:
fold of `str.replace` over `enumerate(feature_column_names)`. -/
def tree_model_string (s : List Char) : List Char :=
  feature_column_names.enum.foldl
    (fun acc q => pyReplace acc (featureTag q.1) (q.2.toList ++ [' '])) s

end CreditNotebook

namespace CreditNotebook

/-! ## Theorems for the display mapping and the feature list -/

/-- **C10.** The fixed list `feature_column_names` contains exactly 20
pairwise-distinct column names, so the shared index-to-name mapping is
injective: no two indices map to the same name. -/
theorem feature_column_names_distinct :
    feature_column_names.length = 20 ∧ feature_column_names.Nodup := by
  constructor
  · rfl
  · decide

/-- **C3.** Applying the display mapping of the `balance` column to any value
outside {1,2,3,4} yields the fatal lookup error (`none`): no default case is
taken and no value is substituted.  In particular a dataset whose `balance`
column contains the value 5 makes the display-mapping step raise the lookup
error. -/
theorem balance_lookup_fatal (v : Int)
    (hv : v ≠ 1 ∧ v ≠ 2 ∧ v ≠ 3 ∧ v ≠ 4) :
    checking_account_status v = none ∧
      ∀ balances : List Int, v ∈ balances → displayMappingStep balances = none := by
  obtain ⟨h1, h2, h3, h4⟩ := hv
  have hnone : checking_account_status v = none := by
    unfold checking_account_status CHECKING_ACCOUNT_STATUS
    simp [h1, h2, h3, h4]
  refine ⟨hnone, ?_⟩
  intro balances hmem
  induction balances with
  | nil => cases hmem
  | cons b bs ih =>
    rcases List.mem_cons.mp hmem with hb | hb
    · subst hb
      simp [displayMappingStep, hnone]
    · cases hcb : checking_account_status b with
      | none => simp [displayMappingStep, hcb]
      | some s => simp [displayMappingStep, hcb, ih hb]

/-- Witness for C3 at the concrete value 5 and a concrete dataset. -/
theorem balance_lookup_fatal_witness :
    checking_account_status 5 = none ∧
      displayMappingStep [1, 5, 2] = none := by
  have h := balance_lookup_fatal 5 (by decide)
  exact ⟨h.1, h.2 [1, 5, 2] (by decide)⟩

/-- **C4.** For every row, the assembled feature vector has length exactly 20
and its `i`-th element is the row's value at the `i`-th name of
`feature_column_names`. -/
theorem features_length_and_order (r : Record) (i : Nat) (hi : i < 20) :
    (features r).length = 20 ∧
      (features r).get ⟨i, by simpa [features, assemble] using hi⟩ =
        r (feature_column_names.get ⟨i, hi⟩) := by
  constructor
  · rfl
  · simp [features, assemble]

/-- Witness for C4: a concrete row and index. -/
theorem features_length_and_order_witness :
    ((features fun _ => 7).length = 20 ∧
      (features fun _ => 7).get ⟨3, by decide⟩ =
        (fun _ => (7 : Int)) (feature_column_names.get ⟨3, by decide⟩)) := by
  exact features_length_and_order (fun _ => 7) 3 (by decide)

/-! ## Theorems for the splitter -/

/-- **C2.** The two outputs of the splitter partition the input: every
enumerated input row appears in exactly one of the Training Set and the
Test Set, and each output contains only input rows. -/
theorem randomSplit_partitions {α : Type} (seed : Nat) (ds : List α) :
    (∀ p : Nat × α, p ∈ ds.enum →
        (p ∈ (randomSplit seed ds).1 ∧ p ∉ (randomSplit seed ds).2) ∨
        (p ∈ (randomSplit seed ds).2 ∧ p ∉ (randomSplit seed ds).1)) ∧
    (∀ p : Nat × α,
        p ∈ (randomSplit seed ds).1 ∨ p ∈ (randomSplit seed ds).2 →
        p ∈ ds.enum) := by
  constructor
  · intro p hp
    by_cases h : splitAssign seed p.1
    · exact Or.inl ⟨List.mem_filter.mpr ⟨hp, by simp [h]⟩,
        fun hc => by simpa [h] using (List.mem_filter.mp hc).2⟩
    · exact Or.inr ⟨List.mem_filter.mpr ⟨hp, by simp [h]⟩,
        fun hc => h (List.mem_filter.mp hc).2⟩
  · intro p hp
    rcases hp with hp | hp
    · exact (List.mem_filter.mp hp).1
    · exact (List.mem_filter.mp hp).1

/-- Witness for C2 at a concrete seed, dataset and row. -/
theorem randomSplit_partitions_witness :
    ((0, 10) ∈ (randomSplit 12345 [10, 20, 30]).1 ∧
        (0, 10) ∉ (randomSplit 12345 [10, 20, 30]).2) ∨
      ((0, 10) ∈ (randomSplit 12345 [10, 20, 30]).2 ∧
        (0, 10) ∉ (randomSplit 12345 [10, 20, 30]).1) :=
  (randomSplit_partitions 12345 [10, 20, 30]).1 (0, 10) (by decide)

/-- The single-pass stateful implementation computes the same two filtered
lists as the closed-form per-index assignment, for any starting index. -/
theorem splitRun_eq_filter {α : Type} (seed : Nat) :
    ∀ (xs : List α) (i : Nat),
      splitRun (iterLcg seed i) (List.enumFrom i xs) =
        ((List.enumFrom i xs).filter fun p => splitAssign seed p.1,
         (List.enumFrom i xs).filter fun p => !splitAssign seed p.1) := by
  intro xs
  induction xs with
  | nil => intro i; simp [splitRun]
  | cons x xs ih =>
    intro i
    have hstep : lcg (iterLcg seed i) = iterLcg seed (i + 1) := rfl
    have hrec := ih (i + 1)
    by_cases h : iterLcg seed (i + 1) % 10 < 8
    · simp [List.enumFrom, splitRun, hstep, hrec, h, splitAssign, List.filter_cons]
    · simp [List.enumFrom, splitRun, hstep, hrec, h, splitAssign, List.filter_cons]

/-- **C6.** The splitter is deterministic in the seed: a second, independent
run of the split operation (the stateful single-pass implementation) on the
same input with the same seed assigns every row identically — both runs
produce the same Training Set and the same Test Set. -/
theorem randomSplit_deterministic {α : Type} (seed : Nat) (ds : List α) :
    randomSplitRun seed ds = randomSplit seed ds := by
  have h := splitRun_eq_filter seed ds 0
  simpa [randomSplitRun, randomSplit, List.enum] using h

/-! ## Theorems for the trainer -/

/-- `getD` at an in-range position returns a member of the list. -/
theorem getD_mem_of_lt (l : List Nat) : ∀ (n d : Nat), n < l.length → l.getD n d ∈ l := by
  induction l with
  | nil => intro n d h; simp at h
  | cons x xs ih =>
    intro n d h
    cases n with
    | zero => simp
    | succ m =>
      have hm : m < xs.length := by simpa using h
      simpa using Or.inr (ih m d hm)

/-- Every feature index a split subset draws is a valid feature index. -/
theorem featSubset_lt (s : Nat) : ∀ x ∈ featSubset s, x < 20 := by
  intro x hx
  obtain ⟨j, _, hj⟩ := List.mem_map.mp hx
  rw [← hj]
  exact Nat.mod_lt _ (by decide)

/-- A split subset has exactly `featureSubsetSize = 5` entries. -/
theorem featSubset_length (s : Nat) : (featSubset s).length = 5 := by
  simp [featSubset, rfNotebook]

/-- The picked split feature is a member of the considered subset. -/
theorem featPick_mem (s : Nat) : featPick s ∈ featSubset s := by
  unfold featPick
  apply getD_mem_of_lt
  rw [featSubset_length]
  exact Nat.mod_lt _ (by decide)

/-- The picked split feature is a valid feature index. -/
theorem featPick_lt (s : Nat) : featPick s < 20 :=
  featSubset_lt s _ (featPick_mem s)

/-- A built tree never exceeds its depth budget. -/
theorem buildTree_depth_le {α : Type} (labelOf : α → Int) (featOf : α → Nat → Int)
    (p : RFParams) : ∀ (d s : Nat) (rows : List α),
      (buildTree labelOf featOf p d s rows).depth ≤ d := by
  intro d
  induction d with
  | zero => intro s rows; simp [buildTree, DTree.depth]
  | succ d ih =>
    intro s rows
    by_cases h : rows.length ≤ 1
    · simp [buildTree, h, DTree.depth]
    · have h1 := ih (lcg (2 * s))
        (rows.filter fun r => decide (featOf r (featPick s) ≤ Int.ofNat (iterLcg s 7 % p.maxBins)))
      have h2 := ih (lcg (2 * s + 1))
        (rows.filter fun r => !decide (featOf r (featPick s) ≤ Int.ofNat (iterLcg s 7 % p.maxBins)))
      simp only [buildTree, if_neg h, DTree.depth]
      omega

/-- Every interior node of a built tree splits a valid feature index at a
threshold lying in one of the `maxBins` candidate bins. -/
theorem buildTree_okNodes {α : Type} (labelOf : α → Int) (featOf : α → Nat → Int)
    (p : RFParams) (hb : 0 < p.maxBins) : ∀ (d s : Nat) (rows : List α),
      (buildTree labelOf featOf p d s rows).okNodes 20 p.maxBins = true := by
  intro d
  induction d with
  | zero => intro s rows; simp [buildTree, DTree.okNodes]
  | succ d ih =>
    intro s rows
    by_cases h : rows.length ≤ 1
    · simp [buildTree, h, DTree.okNodes]
    · have h1 := ih (lcg (2 * s))
        (rows.filter fun r => decide (featOf r (featPick s) ≤ Int.ofNat (iterLcg s 7 % p.maxBins)))
      have h2 := ih (lcg (2 * s + 1))
        (rows.filter fun r => !decide (featOf r (featPick s) ≤ Int.ofNat (iterLcg s 7 % p.maxBins)))
      have hf := featPick_lt s
      have ht : iterLcg s 7 % p.maxBins < p.maxBins := Nat.mod_lt _ hb
      simp only [buildTree, if_neg h, DTree.okNodes, Bool.and_eq_true, decide_eq_true_eq]
      exact ⟨⟨⟨⟨hf, Int.ofNat_nonneg _⟩, Int.ofNat_lt.mpr ht⟩, h1⟩, h2⟩

/-- **C1.** The trained model is an ensemble of exactly 20 decision trees of
maximum depth 5, built with label column `creditability` and seed 42; each
split decision considers a random subset of 5 of the 20 features (the
picked feature belongs to its size-5 subset of valid indices), and each
split threshold is one of at most 150 discretization bins. -/
theorem rf_model_shape {α : Type} (labelOf : α → Int) (featOf : α → Nat → Int)
    (rows : List α) (s : Nat) :
    rfNotebook.numTrees = 20 ∧ rfNotebook.maxDepth = 5 ∧
    rfNotebook.labelCol = "creditability" ∧ rfNotebook.seed = 42 ∧
    rfNotebook.featureSubsetSize = 5 ∧ rfNotebook.maxBins ≤ 150 ∧
    numFeatures = 20 ∧
    (featSubset s).length = 5 ∧
    featPick s ∈ featSubset s ∧
    (featSubset s).all (fun x => decide (x < 20)) = true ∧
    (fit labelOf featOf rfNotebook rows).length = 20 ∧
    (fit labelOf featOf rfNotebook rows).all
      (fun t => decide (t.depth ≤ 5) && t.okNodes 20 150) = true := by
  refine ⟨rfl, rfl, rfl, rfl, rfl, le_refl _, rfl, featSubset_length s, featPick_mem s,
    ?_, ?_, ?_⟩
  · exact List.all_eq_true.mpr fun x hx => decide_eq_true (featSubset_lt s x hx)
  · simp [fit, rfNotebook]
  · refine List.all_eq_true.mpr fun t ht => ?_
    obtain ⟨k, _, hk⟩ := List.mem_map.mp ht
    subst hk
    have hd := buildTree_depth_le labelOf featOf rfNotebook rfNotebook.maxDepth
      (iterLcg rfNotebook.seed (k + 1)) (bootstrap (iterLcg rfNotebook.seed (k + 1)) rows)
    have ho := buildTree_okNodes labelOf featOf rfNotebook (by norm_num [rfNotebook])
      rfNotebook.maxDepth (iterLcg rfNotebook.seed (k + 1))
      (bootstrap (iterLcg rfNotebook.seed (k + 1)) rows)
    simp only [Bool.and_eq_true, decide_eq_true_eq]
    exact ⟨hd, ho⟩

/-! ## Theorems for the predictor -/

/-- **C7.** For every test row, the predictor outputs a class-probability
vector (one entry per class, length 2 as a pair) equal to the componentwise
average of the 20 per-tree predicted class-probability vectors, and a
predicted label equal to the argmax of that vector, ties broken toward
class 0. -/
theorem transform_avg_argmax {α : Type} (featOf : α → Nat → Int)
    (trees : List DTree) (x : α) (h20 : trees.length = 20) :
    (transformRow featOf trees x).1.1 =
        (trees.map fun t => (t.predictRow featOf x).1).sum / 20 ∧
    (transformRow featOf trees x).1.2 =
        (trees.map fun t => (t.predictRow featOf x).2).sum / 20 ∧
    (transformRow featOf trees x).2 =
        (if (transformRow featOf trees x).1.1 < (transformRow featOf trees x).1.2
          then 1 else 0) := by
  refine ⟨?_, ?_, rfl⟩
  · simp only [transformRow, avgProbs, List.map_map, Function.comp_def]
    rw [List.length_map, h20]
    norm_num
  · simp only [transformRow, avgProbs, List.map_map, Function.comp_def]
    rw [List.length_map, h20]
    norm_num

/-- Witness for C7 at a concrete 20-tree model and row. -/
theorem transform_avg_argmax_witness :
    (List.replicate 20 (DTree.leaf ((1:ℚ)/2, (1:ℚ)/2))).length = 20 ∧
    ((transformRow (fun (_ : Unit) _ => (0 : Int))
          (List.replicate 20 (DTree.leaf ((1:ℚ)/2, (1:ℚ)/2))) ()).1.1 =
        ((List.replicate 20 (DTree.leaf ((1:ℚ)/2, (1:ℚ)/2))).map
            fun t => (t.predictRow (fun (_ : Unit) _ => (0 : Int)) ()).1).sum / 20 ∧
      (transformRow (fun (_ : Unit) _ => (0 : Int))
          (List.replicate 20 (DTree.leaf ((1:ℚ)/2, (1:ℚ)/2))) ()).1.2 =
        ((List.replicate 20 (DTree.leaf ((1:ℚ)/2, (1:ℚ)/2))).map
            fun t => (t.predictRow (fun (_ : Unit) _ => (0 : Int)) ()).2).sum / 20 ∧
      (transformRow (fun (_ : Unit) _ => (0 : Int))
          (List.replicate 20 (DTree.leaf ((1:ℚ)/2, (1:ℚ)/2))) ()).2 =
        (if (transformRow (fun (_ : Unit) _ => (0 : Int))
              (List.replicate 20 (DTree.leaf ((1:ℚ)/2, (1:ℚ)/2))) ()).1.1 <
            (transformRow (fun (_ : Unit) _ => (0 : Int))
              (List.replicate 20 (DTree.leaf ((1:ℚ)/2, (1:ℚ)/2))) ()).1.2
          then 1 else 0)) :=
  ⟨by simp, transform_avg_argmax (fun (_ : Unit) _ => (0 : Int))
    (List.replicate 20 (DTree.leaf ((1:ℚ)/2, (1:ℚ)/2))) () (by simp)⟩

/-! ## Theorems for the feature importances -/

/-- Dividing every element of a list by a constant divides its sum. -/
theorem sum_map_div (l : List ℚ) (c : ℚ) :
    (l.map fun x => x / c).sum = l.sum / c := by
  induction l with
  | nil => simp
  | cons x xs ih => simp [ih, add_div]

/-- **C5.** For a trained model with 20 non-negative raw per-feature
impurity reductions of positive total, the Feature Importance Table has
exactly 20 scores, each non-negative, and the scores sum to 1 (hence to 1.0
within the 1e-6 floating tolerance). -/
theorem featureImportances_normalized (raw : List ℚ) (h20 : raw.length = 20)
    (hnn : ∀ x ∈ raw, 0 ≤ x) (hpos : 0 < raw.sum) :
    (normalizeImportances raw).length = 20 ∧
    (∀ x ∈ normalizeImportances raw, 0 ≤ x) ∧
    (normalizeImportances raw).sum = 1 ∧
    |(normalizeImportances raw).sum - 1| ≤ 1 / 1000000 := by
  have hsum : (normalizeImportances raw).sum = 1 := by
    rw [normalizeImportances, sum_map_div]
    exact div_self (ne_of_gt hpos)
  refine ⟨by simp [normalizeImportances, h20], ?_, hsum, by rw [hsum]; norm_num⟩
  intro x hx
  obtain ⟨y, hy, hxy⟩ := List.mem_map.mp hx
  rw [← hxy]
  exact div_nonneg (hnn y hy) hpos.le

/-- Witness for C5 at a concrete raw-importance vector. -/
theorem featureImportances_normalized_witness :
    (normalizeImportances (List.replicate 20 1)).length = 20 ∧
    (∀ x ∈ normalizeImportances (List.replicate 20 1), 0 ≤ x) ∧
    (normalizeImportances (List.replicate 20 1)).sum = 1 ∧
    |(normalizeImportances (List.replicate 20 1)).sum - 1| ≤ 1 / 1000000 :=
  featureImportances_normalized (List.replicate 20 1) (by simp)
    (fun x hx => by rw [List.eq_of_mem_replicate hx]; norm_num)
    (by rw [List.sum_replicate]; norm_num)

/-! ## Theorems for the evaluator -/

/-- A list of non-negative rationals has a non-negative sum. -/
theorem sum_nonneg_of_mem (l : List ℚ) (h : ∀ x ∈ l, 0 ≤ x) : 0 ≤ l.sum := by
  induction l with
  | nil => simp
  | cons x xs ih =>
    have hx := h x (List.mem_cons_self x xs)
    have hxs := ih fun y hy => h y (List.mem_cons_of_mem x hy)
    simp only [List.sum_cons]
    linarith

/-- A list of rationals bounded by `c` has sum at most `length * c`. -/
theorem sum_le_length_mul (l : List ℚ) (c : ℚ) (h : ∀ x ∈ l, x ≤ c) :
    l.sum ≤ (l.length : ℚ) * c := by
  induction l with
  | nil => simp
  | cons x xs ih =>
    have hx := h x (List.mem_cons_self x xs)
    have hxs := ih fun y hy => h y (List.mem_cons_of_mem x hy)
    simp only [List.sum_cons, List.length_cons]
    push_cast
    nlinarith [hx, hxs]

/-- A map whose values are all `c` sums to `length * c`. -/
theorem sum_map_const_eq {β : Type} (l : List β) (f : β → ℚ) (c : ℚ)
    (h : ∀ x ∈ l, f x = c) : (l.map f).sum = (l.length : ℚ) * c := by
  induction l with
  | nil => simp
  | cons x xs ih =>
    have hx := h x (List.mem_cons_self x xs)
    have hxs := ih fun y hy => h y (List.mem_cons_of_mem x hy)
    simp only [List.map_cons, List.sum_cons, List.length_cons, hx, hxs]
    push_cast
    ring

/-- The ranking credit of one pair lies in `[0, 1]`. -/
theorem pairScore_mem_unit (sp sn : ℚ) : 0 ≤ pairScore sp sn ∧ pairScore sp sn ≤ 1 := by
  unfold pairScore
  split_ifs <;> norm_num

/-- The total ranking credit is non-negative. -/
theorem aucNum_nonneg (pos neg : List ℚ) : 0 ≤ aucNum pos neg := by
  apply sum_nonneg_of_mem
  intro x hx
  obtain ⟨sp, _, hsp⟩ := List.mem_map.mp hx
  rw [← hsp]
  apply sum_nonneg_of_mem
  intro y hy
  obtain ⟨sn, _, hsn⟩ := List.mem_map.mp hy
  rw [← hsn]
  exact (pairScore_mem_unit sp sn).1

/-- The total ranking credit is at most the number of pairs. -/
theorem aucNum_le_card (pos neg : List ℚ) :
    aucNum pos neg ≤ (pos.length : ℚ) * (neg.length : ℚ) := by
  unfold aucNum
  have hb : ∀ x ∈ pos.map fun sp => (neg.map fun sn => pairScore sp sn).sum,
      x ≤ (neg.length : ℚ) := by
    intro x hx
    obtain ⟨sp, _, hsp⟩ := List.mem_map.mp hx
    rw [← hsp]
    have := sum_le_length_mul (neg.map fun sn => pairScore sp sn) 1 ?_
    · simpa using this
    · intro y hy
      obtain ⟨sn, _, hsn⟩ := List.mem_map.mp hy
      rw [← hsn]
      exact (pairScore_mem_unit sp sn).2
  have := sum_le_length_mul (pos.map fun sp => (neg.map fun sn => pairScore sp sn).sum)
    (neg.length : ℚ) hb
  simpa using this

/-- **C8.** The evaluator's output (area under the ROC curve) is always a
scalar in `[0, 1]`; and whenever every row's predicted probability equals
its ground-truth label with perfect confidence and both classes are
present, the metric equals 1. -/
theorem evaluator_bounds_and_perfect (rows : List (ℚ × Int)) :
    (0 ≤ areaUnderROC rows ∧ areaUnderROC rows ≤ 1) ∧
    ((∀ r ∈ rows, r.1 = (r.2 : ℚ)) → posScores rows ≠ [] → negScores rows ≠ [] →
      areaUnderROC rows = 1) := by
  constructor
  · by_cases hz : (((posScores rows).length : ℚ) * ((negScores rows).length : ℚ)) = 0
    · unfold areaUnderROC
      rw [hz, div_zero]
      norm_num
    · have hnn : (0:ℚ) ≤ ((posScores rows).length : ℚ) * ((negScores rows).length : ℚ) := by
        positivity
      have hlt : (0:ℚ) < ((posScores rows).length : ℚ) * ((negScores rows).length : ℚ) :=
        lt_of_le_of_ne hnn (Ne.symm hz)
      constructor
      · exact div_nonneg (aucNum_nonneg _ _) hnn
      · exact (div_le_one hlt).mpr (aucNum_le_card _ _)
  · intro hperf hp hn
    have hpos1 : ∀ sp ∈ posScores rows, sp = 1 := by
      intro sp hsp
      obtain ⟨r, hr, hr1⟩ := List.mem_map.mp hsp
      have hmem := List.mem_filter.mp hr
      have hl : r.2 = 1 := by simpa using hmem.2
      have := hperf r hmem.1
      rw [← hr1, this, hl]
      norm_num
    have hneg0 : ∀ sn ∈ negScores rows, sn = 0 := by
      intro sn hsn
      obtain ⟨r, hr, hr0⟩ := List.mem_map.mp hsn
      have hmem := List.mem_filter.mp hr
      have hl : r.2 = 0 := by simpa using hmem.2
      have := hperf r hmem.1
      rw [← hr0, this, hl]
      norm_num
    have hinner : ∀ sp ∈ posScores rows,
        ((negScores rows).map fun sn => pairScore sp sn).sum = ((negScores rows).length : ℚ) := by
      intro sp hsp
      have := sum_map_const_eq (negScores rows) (fun sn => pairScore sp sn) 1 ?_
      · simpa using this
      · intro sn hsn
        rw [hpos1 sp hsp, hneg0 sn hsn]
        simp [pairScore]
    have hnum : aucNum (posScores rows) (negScores rows) =
        ((posScores rows).length : ℚ) * ((negScores rows).length : ℚ) := by
      unfold aucNum
      exact sum_map_const_eq _ _ _ hinner
    have hP : ((posScores rows).length : ℚ) ≠ 0 := by
      simpa using List.length_pos.mpr hp |>.ne'
    have hN : ((negScores rows).length : ℚ) ≠ 0 := by
      simpa using List.length_pos.mpr hn |>.ne'
    unfold areaUnderROC
    rw [hnum]
    exact div_self (mul_ne_zero hP hN)

/-- Witness for C8: perfectly-confident correct predictions with both
classes present score exactly 1, and the bounds hold there. -/
theorem evaluator_bounds_and_perfect_witness :
    (0 ≤ areaUnderROC [((1:ℚ), (1:Int)), (0, 0)] ∧
      areaUnderROC [((1:ℚ), (1:Int)), (0, 0)] ≤ 1) ∧
    areaUnderROC [((1:ℚ), (1:Int)), (0, 0)] = 1 :=
  ⟨(evaluator_bounds_and_perfect [((1:ℚ), (1:Int)), (0, 0)]).1,
    (evaluator_bounds_and_perfect [((1:ℚ), (1:Int)), (0, 0)]).2
      (by decide) (by decide) (by decide)⟩

/-! ## Theorems for the tree dump substitution -/

/-- `str.replace` leaves a string without any occurrence of the pattern
unchanged, for every fuel. -/
theorem replaceFuel_eq_of_no_match (p r : List Char) :
    ∀ (f : Nat) (s : List Char), occursIn p s = false → replaceFuel p r f s = s := by
  intro f
  induction f with
  | zero => intro s _; rfl
  | succ f ih =>
    intro s h
    cases s with
    | nil => rfl
    | cons c cs =>
      have h' : startsList p (c :: cs) = false ∧ occursIn p cs = false := by
        simpa [occursIn] using h
      simp [replaceFuel, h'.1, ih cs h'.2]

/-- `str.replace` with a never-occurring pattern is the identity. -/
theorem pyReplace_eq_of_no_match (s p r : List Char) (h : occursIn p s = false) :
    pyReplace s p r = s :=
  replaceFuel_eq_of_no_match p r s.length s h

/-- **C9.** The tree dump applies, for each index `i` in `0..19` in order,
Python `str.replace` of the literal pattern `"feature i "` (with trailing
space) by the `i`-th feature column name followed by a space; for these 20
indices the trailing space prevents any mis-substitution through a shorter
index whose text is an initial segment of a longer one: the replacement for
an index `i` never matches inside the pattern of a two-digit index `j ≠ i`
(in particular replacing index 1 never alters an occurrence of any of
10..19), while each pattern occurrence itself is rewritten to its name. -/
theorem tree_dump_substitution (s : List Char) :
    tree_model_string s =
      (List.range 20).foldl (fun acc i => pyReplace acc (featureTag i) (nameTag i)) s ∧
    (∀ i, i < 20 → ∀ j, j < 20 → 10 ≤ j → i ≠ j →
      ∀ r : List Char, pyReplace (featureTag j) (featureTag i) r = featureTag j) ∧
    (∀ i, i < 20 → pyReplace (featureTag i) (featureTag i) (nameTag i) = nameTag i) := by
  have H1 : ∀ i, i < 20 → ∀ j, j < 20 → 10 ≤ j → i ≠ j →
      occursIn (featureTag i) (featureTag j) = false := by decide
  have H2 : ∀ i, i < 20 →
      pyReplace (featureTag i) (featureTag i) (nameTag i) = nameTag i := by decide
  refine ⟨rfl, ?_, H2⟩
  intro i hi j hj hj10 hne r
  exact pyReplace_eq_of_no_match _ _ _ (H1 i hi j hj hj10 hne)

/-- Witness for C9: replacing index 1 leaves the pattern of index 10
untouched, and the pattern of index 3 is rewritten to its name. -/
theorem tree_dump_substitution_witness :
    pyReplace (featureTag 10) (featureTag 1) (nameTag 1) = featureTag 10 ∧
    pyReplace (featureTag 3) (featureTag 3) (nameTag 3) = nameTag 3 :=
  ⟨(tree_dump_substitution []).2.1 1 (by decide) 10 (by decide) (by decide) (by decide)
      (nameTag 1),
    (tree_dump_substitution []).2.2 3 (by decide)⟩

end CreditNotebook
